import Mathlib

/-!
Verification development for the FFT-Analyser application (src/app.py).

The Python source is shallowly embedded: Python floats are modelled as real
numbers (rationals where no transcendental function is involved), numpy
arrays as Lean lists, Python dicts as association lists with
replace-or-append update, and the mutable numpy arrays relevant to the
copy-on-save behaviour as references into an explicit store.
-/

namespace FFTAnalyser

/-! ## Registry of saved results (`save_to_results`, `remove_result`)

`self.fft_results` is a Python dict mapping integer ids to analysis-result
dicts.  The analysis-result dict holds (among scalar metadata) the two numpy
arrays `frequencies` and `amplitudes`; since the arrays are mutable heap
objects shared by reference, the record stores references (natural-number
addresses) into an explicit store. -/

/-- A mutable store mapping array references to array contents, modelling the
numpy arrays held by reference in the analysis-result dicts. -/
abbrev Store : Type := ℕ → List ℚ

/-- Overwrite the array held at reference `r` (an in-place numpy mutation). -/
def writeStore (s : Store) (r : ℕ) (v : List ℚ) : Store :=
  fun k => if k = r then v else s k

/-- The analysis-result dict `self.current_fft_data`, reduced to the fields
relevant here: the references to the `frequencies` and `amplitudes` numpy
arrays.  Scalar metadata fields are immutable values and play no role in the
aliasing behaviour. -/
structure FFTRecord where
  freqRef : ℕ
  ampRef : ℕ
  deriving DecidableEq, Repr

/-- Python `dict.copy()` is a shallow copy: it builds a new dict whose values
are the same objects, so the array references are copied unchanged. -/
def dictCopy (r : FFTRecord) : FFTRecord :=
  { freqRef := r.freqRef, ampRef := r.ampRef }

/-- The dict `self.fft_results`, as an association list in insertion order. -/
abbrev Registry : Type := List (ℕ × FFTRecord)

/-- Python `d[k] = v`: replace the value if the key is present, else append. -/
def dictSet (d : Registry) (k : ℕ) (v : FFTRecord) : Registry :=
  if d.any (fun p => p.1 = k) then
    d.map (fun p => if p.1 = k then (k, v) else p)
  else
    d ++ [(k, v)]

/-- Python `del d[k]` guarded by `if k in d` (as in `remove_result`). -/
def dictDel (d : Registry) (k : ℕ) : Registry :=
  d.filter (fun p => p.1 ≠ k)

/-- Python `d[k]` lookup, `None` when absent. -/
def dictGet (d : Registry) (k : ℕ) : Option FFTRecord :=
  (d.find? (fun p => p.1 = k)).map Prod.snd

/-- dict length: number of keys currently stored. -/
def dictLen (d : Registry) : ℕ := d.length

/-- Source `save_to_results` (src/app.py lines 1240-1254): the new id is
`len(self.fft_results) + 1` and the entry stored under it is
`self.current_fft_data.copy()`.  Returns the issued id and the new dict. -/
def save_to_results (d : Registry) (cur : FFTRecord) : ℕ × Registry :=
  let result_id := dictLen d + 1
  (result_id, dictSet d result_id (dictCopy cur))

/-- Source `remove_result` (src/app.py lines 1300-1314): for every checked
id, delete it from the dict when present. -/
def remove_result (d : Registry) (ids : List ℕ) : Registry :=
  ids.foldl dictDel d

/-- One user interaction with the saved-results registry. -/
inductive RegOp where
  | ins (cur : FFTRecord)
  | rem (ids : List ℕ)

/-- Run a session of registry operations from a starting dict, returning the
final dict together with the list of ids issued by the inserts, in order. -/
def runRegistry : List RegOp → Registry → Registry × List ℕ
  | [], d => (d, [])
  | RegOp.ins c :: ops, d =>
      let r := save_to_results d c
      let rest := runRegistry ops r.2
      (rest.1, r.1 :: rest.2)
  | RegOp.rem ids :: ops, d => runRegistry ops (remove_result d ids)

/-- View the amplitude array of the registry entry stored under key `k`,
through the store (empty array when the key is absent). -/
def registryAmp (s : Store) (d : Registry) (k : ℕ) : List ℚ :=
  match dictGet d k with
  | some e => s e.ampRef
  | none => []

/-! ## Peak detection (`detect_peaks_advanced`, src/app.py lines 1348-1398)

Amplitudes are Python floats, modelled as real numbers (the statistical
threshold needs a square root). -/

/-- Python ` np.max` on a nonempty array; the empty case never arises in the
source (the amplitude array of a completed analysis is nonempty) and is given
the junk value 0. -/
noncomputable def pyMax (l : List ℝ) : ℝ :=
  match l with
  | [] => 0
  | h :: t => t.foldl max h

/-- Python ` np.mean`: sum divided by length (0 for the empty array, using
the Lean convention that division by zero is zero). -/
noncomputable def pyMean (l : List ℝ) : ℝ := l.sum / l.length

/-- Python ` np.std`: the population standard deviation
`sqrt(mean((x - mean(x))^2))`. -/
noncomputable def pyStd (l : List ℝ) : ℝ :=
  Real.sqrt (((l.map (fun x => (x - pyMean l) ^ 2)).sum) / l.length)

/-- Source `start_idx = 1 if skip_dc else 0` (line 1359). -/
def startIdx (skipDc : Bool) : ℕ := if skipDc then 1 else 0

/-- The threshold computation of `detect_peaks_advanced` (lines 1361-1371).
Note the relative mode takes the maximum of the WHOLE amplitude array, while
the statistical mode restricts to `amplitude[start_idx:]`.  The threshold
mode is the string held by the settings combobox, with the source's
fallback threshold 0 for any unrecognized string. -/
noncomputable def peakThreshold (mode : String) (relT absT statF : ℝ)
    (skipDc : Bool) (amp : List ℝ) : ℝ :=
  if mode = "relative" then
    pyMax amp * relT
  else if mode = "absolute" then
    absT
  else if mode = "statistical" then
    pyMean (amp.drop (startIdx skipDc)) + statF * pyStd (amp.drop (startIdx skipDc))
  else
    0

/-- Modelled from the spec: the threshold as the specification describes it,
with the relative mode taking the maximum of `amplitude[start_index:]`
(spec 4.3: `Relative(f) → f * max(amplitude[start_index:])`). -/
noncomputable def specC2Threshold (mode : String) (relT absT statF : ℝ)
    (skipDc : Bool) (amp : List ℝ) : ℝ :=
  if mode = "relative" then
    relT * pyMax (amp.drop (startIdx skipDc))
  else if mode = "absolute" then
    absT
  else if mode = "statistical" then
    pyMean (amp.drop (startIdx skipDc)) + statF * pyStd (amp.drop (startIdx skipDc))
  else
    0

/-- The window offsets `j` scanned by the local-maximum test:
`range(-window_size, window_size + 1)` (line 1377). -/
def offsets (w : ℕ) : List ℤ :=
  (List.range (2 * w + 1)).map (fun t => (t : ℤ) - (w : ℤ))

/-- Indexing `amplitude[i + j]` for an integer offset; within the candidate
range of the source loop the index is always in bounds, so the junk value 0
and the `toNat` clamping are never exercised there. -/
def ampAt (amp : List ℝ) (z : ℤ) : ℝ := amp.getD z.toNat 0

/-- The local-maximum test of the source (lines 1375-1380): `i` is kept iff
`amplitude[i] > amplitude[i+j]` for every in-window offset `j ≠ 0`. -/
def isLocalMaxAt (amp : List ℝ) (w i : ℕ) : Prop :=
  ∀ j ∈ offsets w, j ≠ 0 → ampAt amp ((i : ℤ) + j) < amp.getD i 0

noncomputable instance (amp : List ℝ) (w i : ℕ) : Decidable (isLocalMaxAt amp w i) := by
  unfold isLocalMaxAt; infer_instance

/-- The inner scan over the already-accepted peaks (lines 1385-1393): walk
the accepted list in order; at the first prior peak closer than
`min_distance`, either drop that prior peak (when the new candidate has the
strictly higher amplitude) or mark the candidate as too close; in both cases
stop scanning.  Returns the possibly shortened list and the `too_close`
flag. -/
noncomputable def innerScan (amp : List ℝ) (d i : ℕ) : List ℕ → List ℕ × Bool
  | [] => ([], false)
  | p :: rest =>
    if Nat.dist i p < d then
      if amp.getD p 0 < amp.getD i 0 then (rest, false) else (p :: rest, true)
    else
      let r := innerScan amp d i rest
      (p :: r.1, r.2)

/-- Processing of one accepted candidate `i` against the accepted peaks
(lines 1384-1396): scan, then append `i` unless it was marked too close. -/
noncomputable def mergeCandidate (amp : List ℝ) (d : ℕ) (peaks : List ℕ) (i : ℕ) : List ℕ :=
  let r := innerScan amp d i peaks
  if r.2 then r.1 else r.1 ++ [i]

/-- The candidate loop of `detect_peaks_advanced` (lines 1374-1396), walking
the candidate indices in ascending order and threading the accepted-peaks
list. -/
noncomputable def detectLoop (amp : List ℝ) (thr : ℝ) (d w : ℕ) :
    List ℕ → List ℕ → List ℕ
  | [], peaks => peaks
  | i :: rest, peaks =>
    if isLocalMaxAt amp w i ∧ thr < amp.getD i 0 then
      detectLoop amp thr d w rest (mergeCandidate amp d peaks i)
    else
      detectLoop amp thr d w rest peaks

/-- The candidate index range of the source loop:
`range(start_idx + window_size, len(amplitude) - window_size)` (line 1374). -/
def candidateIdxs (skipDc : Bool) (w : ℕ) (ampLen : ℕ) : List ℕ :=
  List.range' (startIdx skipDc + w) ((ampLen - w) - (startIdx skipDc + w))

/-- Source `detect_peaks_advanced` (lines 1348-1398). -/
noncomputable def detect_peaks_advanced (mode : String) (relT absT statF : ℝ)
    (minDist w : ℕ) (skipDc : Bool) (amp : List ℝ) : List ℕ :=
  detectLoop amp (peakThreshold mode relT absT statF skipDc amp) minDist w
    (candidateIdxs skipDc w amp.length) []

/-- Modelled from the spec: the minimum-distance enforcement step as claim C7
words it — the new candidate is compared against only the first prior
accepted peak within `min_distance_bins`; the higher of the two survives
(the prior one is removed when the new candidate is strictly higher,
otherwise the candidate is discarded). -/
noncomputable def specMergeStep (amp : List ℝ) (d : ℕ) (peaks : List ℕ) (i : ℕ) : List ℕ :=
  match peaks.find? (fun p => Nat.dist i p < d) with
  | none => peaks ++ [i]
  | some p => if amp.getD p 0 < amp.getD i 0 then peaks.erase p ++ [i] else peaks

/-- The candidates that pass the local-maximum and threshold tests, in
ascending index order. -/
noncomputable def acceptedCandidates (mode : String) (relT absT statF : ℝ)
    (w : ℕ) (skipDc : Bool) (amp : List ℝ) : List ℕ :=
  (candidateIdxs skipDc w amp.length).filter
    (fun i => decide (isLocalMaxAt amp w i ∧
      peakThreshold mode relT absT statF skipDc amp < amp.getD i 0))

/-! ## Spectrum computation (`run_fft_analysis`, src/app.py lines 1077-1081)

The source computes `xf = fftfreq(len(data), T)[:len(data)//2]` with
`T = 1.0 / freq_hz` and `amplitude = 2.0/len(data) * np.abs(yf[:len(data)//2])`
where `yf = fft(data)`. -/

/-- The scipy/numpy `fftfreq(n, d)` output:
`[0, 1, ..., (n-1)//2, -(n//2), ..., -1] / (d*n)`. -/
noncomputable def fftfreqList (n : ℕ) (d : ℝ) : List ℝ :=
  (List.range n).map (fun k =>
    if k ≤ (n - 1) / 2 then (k : ℝ) / (d * n) else ((k : ℝ) - n) / (d * n))

/-- The frequency axis of the computed spectrum: the first `N // 2` entries
of `fftfreq(N, 1/fs)` (line 1080). -/
noncomputable def fftFrequencies (N : ℕ) (fs : ℝ) : List ℝ :=
  (fftfreqList N (1 / fs)).take (N / 2)

/-- The single-sided amplitude: `2/N * |yf[k]|` over the first `N // 2`
transform outputs (line 1081); the same formula at every bin, including
bin 0. -/
noncomputable def fftAmplitude (N : ℕ) (yf : List ℂ) : List ℝ :=
  (yf.take (N / 2)).map (fun c => 2 / (N : ℝ) * Complex.abs c)

/-- The forward discrete Fourier transform computed by `scipy.fft.fft`:
`yf[k] = Σ_j x[j] · exp(-2πi·j·k/n)`. -/
noncomputable def dftList (x : List ℝ) : List ℂ :=
  (List.range x.length).map (fun k =>
    (x.enum.map (fun jv =>
      (jv.2 : ℂ) *
        Complex.exp (-(2 * (Real.pi : ℂ) * Complex.I * (jv.1 : ℂ) * (k : ℂ)) /
          (x.length : ℂ)))).sum)

/-- A symmetric cosine-sum window of length `M` (scipy returns `[1]` for
`M = 1`, avoiding the division by `M - 1`). -/
noncomputable def cosWindow (a0 a1 a2 : ℝ) (M : ℕ) : List ℝ :=
  if M = 1 then [1]
  else
    (List.range M).map (fun k =>
      a0 - a1 * Real.cos (2 * Real.pi * k / ((M : ℝ) - 1))
        + a2 * Real.cos (4 * Real.pi * k / ((M : ℝ) - 1)))

/-- `scipy.signal.windows.blackman`. -/
noncomputable def blackmanWindow (M : ℕ) : List ℝ := cosWindow 0.42 0.5 0.08 M

/-- `scipy.signal.windows.hann`. -/
noncomputable def hannWindow (M : ℕ) : List ℝ := cosWindow 0.5 0.5 0 M

/-- `scipy.signal.windows.hamming`. -/
noncomputable def hammingWindow (M : ℕ) : List ℝ := cosWindow 0.54 0.46 0 M

/-- The window application of lines 1066-1075: element-wise multiply for the
three named windows, identity otherwise (no multiplication happens for
`"none"`). -/
noncomputable def applyWindow (wtag : String) (data : List ℝ) : List ℝ :=
  if wtag = "blackman" then data.zipWith (· * ·) (blackmanWindow data.length)
  else if wtag = "hann" then data.zipWith (· * ·) (hannWindow data.length)
  else if wtag = "hamming" then data.zipWith (· * ·) (hammingWindow data.length)
  else data

/-- The state mutated by a successful analysis run: the stored
`current_fft_data` (frequency and amplitude arrays) and the pin list
`permanent_annotations` (frequency, amplitude pairs). -/
structure MainState where
  currentData : Option (List ℝ × List ℝ)
  pins : List (ℝ × ℝ)

/-- The failures surfaced by `run_fft_analysis` relevant here: empty data
after NaN removal (line 1062), and the `ZeroDivisionError` raised by
`T = 1.0 / freq_hz` when the sampling frequency is exactly zero, caught by
the surrounding `try`/`except` (line 1143). -/
inductive RunError where
  | noValidData
  | divisionByZero

/-- Source `run_fft_analysis` (src/app.py lines 1025-1144) restricted to its
computational core: `raw` is the selected column slice with missing values
as ` none`; the run drops them, aborts on empty data, applies the window,
computes the spectrum, and only then commits the new state (clearing the
pin list, line 1086, and storing `current_fft_data`, line 1126).  A zero
sampling frequency raises before any state is touched. -/
noncomputable def run_fft_analysis (raw : List (Option ℝ)) (fs : ℝ) (wtag : String)
    (st : MainState) : MainState × Option RunError :=
  let data := raw.filterMap id
  if data.length = 0 then (st, some RunError.noValidData)
  else if fs = 0 then (st, some RunError.divisionByZero)
  else
    let data2 := applyWindow wtag data
    let yf := dftList data2
    let n := data2.length
    let xf := (fftfreqList n (1 / fs)).take (n / 2)
    let amp := (yf.take (n / 2)).map (fun c => 2 / (n : ℝ) * Complex.abs c)
    ({ currentData := some (xf, amp), pins := [] }, none)

/-! ## Point locator on the combined view
(`on_combined_hover` lines 790-820 and `on_combined_click` lines 869-898)

Both handlers run the identical search: for each stored series with more
than one point, find the index nearest the cursor x, and keep the series
with the strictly smallest distance among those within 2% of that series'
own frequency span.  Only comparisons and absolute values are involved, so
the search is modelled over the rationals and is executable. -/

/-- One candidate series of `self.combined_data`. -/
structure SpectrumQ where
  frequencies : List ℚ
  amplitudes : List ℚ
  deriving DecidableEq, Repr

/-- Helper for `argminQ`: walk the remaining values, keeping the index of
the smallest value seen so far; a strictly smaller value replaces it, so the
first minimum wins, as with ` np.argmin`. -/
def argminAux : List ℚ → ℚ → ℕ → ℕ → ℕ
  | [], _, best, _ => best
  | v :: t, bv, best, cur =>
    if v < bv then argminAux t v cur (cur + 1) else argminAux t bv best (cur + 1)

/-- Python ` np.argmin`: index of the first minimal element (0 on the empty
array, which raises in numpy and never arises in the guarded call sites). -/
def argminQ : List ℚ → ℕ
  | [] => 0
  | h :: t => argminAux t h 0 1

/-- The data point of a series nearest in frequency to the cursor x:
`(frequencies[freq_idx], amplitudes[freq_idx])` for
`freq_idx = argmin(|frequencies - x|)`. -/
def nearestPoint (c : SpectrumQ) (x : ℚ) : ℚ × ℚ :=
  let i := argminQ (c.frequencies.map (fun f => |f - x|))
  (c.frequencies.getD i 0, c.amplitudes.getD i 0)

/-- The nearest-frequency distance `|frequencies[freq_idx] - event.xdata|`. -/
def ndistQ (c : SpectrumQ) (x : ℚ) : ℚ := |(nearestPoint c x).1 - x|

/-- The per-series acceptance tolerance
`(frequencies[-1] - frequencies[0]) * 0.02`. -/
def xtolQ (c : SpectrumQ) : ℚ :=
  (c.frequencies.getLastD 0 - c.frequencies.headD 0) * (2 / 100)

/-- A series accepts the cursor: it has more than one point and its
nearest-frequency distance is strictly within its 2% tolerance. -/
def acceptsQ (c : SpectrumQ) (x : ℚ) : Prop :=
  1 < c.frequencies.length ∧ ndistQ c x < xtolQ c

instance (c : SpectrumQ) (x : ℚ) : Decidable (acceptsQ c x) := by
  unfold acceptsQ; infer_instance

/-- The running `distance < min_distance` test; `min_distance` starts at
infinity, i.e. an empty accumulator accepts any distance. -/
def locBetter (dval : ℚ) : Option (ℚ × SpectrumQ) → Bool
  | none => true
  | some a => decide (dval < a.1)

/-- One iteration of the candidate loop shared by `on_combined_hover` and
`on_combined_click`: series with at most one point are skipped; an accepted
series with a strictly smaller distance than the best so far replaces it. -/
def locStep (x : ℚ) (acc : Option (ℚ × SpectrumQ)) (c : SpectrumQ) :
    Option (ℚ × SpectrumQ) :=
  if 1 < c.frequencies.length then
    let dval := ndistQ c x
    if locBetter dval acc = true ∧ dval < xtolQ c then some (dval, c) else acc
  else acc

/-- The point-locator of the combined view: the closest accepted series'
nearest point, or ` none` when no series accepts. -/
def combinedLocate (cands : List SpectrumQ) (x : ℚ) : Option (ℚ × ℚ) :=
  (cands.foldl (locStep x) none).map (fun a => nearestPoint a.2 x)

/-! ## Pin proximity matching
(`find_clicked_pin` lines 666-701, `find_combined_clicked_pin` lines 910-935)

The y axis is logarithmic, so the y distance is compared in log10 space;
the single-view matcher falls back to a raw linear comparison when either y
coordinate is non-positive, while the combined-view matcher simply never
matches such a pin.  Pins are (frequency, amplitude) pairs; axis limits come
from the rendering surface. -/

/-- The loop of `find_clicked_pin` over the pin list, carrying the running
index: the log-space comparison when both y values are positive, the raw
linear comparison otherwise; the first matching pin index is returned. -/
noncomputable def findPinLoop (xc yc xtol ytol ytolLog : ℝ) :
    List (ℝ × ℝ) → ℕ → Option ℕ
  | [], _ => none
  | pin :: rest, i =>
    if 0 < yc ∧ 0 < pin.2 then
      if |xc - pin.1| ≤ xtol ∧
          |Real.logb 10 yc - Real.logb 10 pin.2| ≤ ytolLog then some i
      else findPinLoop xc yc xtol ytol ytolLog rest (i + 1)
    else
      if |xc - pin.1| ≤ xtol ∧ |yc - pin.2| ≤ ytol then some i
      else findPinLoop xc yc xtol ytol ytolLog rest (i + 1)

/-- Source `find_clicked_pin` (lines 666-701): tolerances are 2% of the x
range, 5% of the linear y range, and 5% of the log10 y range; `hasData`
models the `current_fft_data` guard at the top. -/
noncomputable def find_clicked_pin (hasData : Bool) (pins : List (ℝ × ℝ))
    (xc yc : ℝ) (xlim ylim : ℝ × ℝ) : Option ℕ :=
  if hasData then
    findPinLoop xc yc ((xlim.2 - xlim.1) * (2 / 100)) ((ylim.2 - ylim.1) * (5 / 100))
      ((Real.logb 10 ylim.2 - Real.logb 10 ylim.1) * (5 / 100)) pins 0
  else none

/-- The loop of `find_combined_clicked_pin`: identical to the single-view
loop in the positive case, but a pin is skipped outright when either y value
is non-positive — there is no linear fallback. -/
noncomputable def findCombinedPinLoop (xc yc xtol ytolLog : ℝ) :
    List (ℝ × ℝ) → ℕ → Option ℕ
  | [], _ => none
  | pin :: rest, i =>
    if 0 < yc ∧ 0 < pin.2 then
      if |xc - pin.1| ≤ xtol ∧
          |Real.logb 10 yc - Real.logb 10 pin.2| ≤ ytolLog then some i
      else findCombinedPinLoop xc yc xtol ytolLog rest (i + 1)
    else findCombinedPinLoop xc yc xtol ytolLog rest (i + 1)

/-- Source `find_combined_clicked_pin` (lines 910-935). -/
noncomputable def find_combined_clicked_pin (pins : List (ℝ × ℝ)) (xc yc : ℝ)
    (xlim ylim : ℝ × ℝ) : Option ℕ :=
  findCombinedPinLoop xc yc ((xlim.2 - xlim.1) * (2 / 100))
    ((Real.logb 10 ylim.2 - Real.logb 10 ylim.1) * (5 / 100)) pins 0

/-- Modelled from the spec: the per-pin matching rule as claim C6 words it
for both views — x distance within 2% of the x range, y distance within 5%
of the log10 y range in log10 space, falling back to the raw linear y
distance against 5% of the linear y range when either y coordinate is
non-positive. -/
noncomputable def specC6PinRule (xc yc : ℝ) (xlim ylim : ℝ × ℝ) (pin : ℝ × ℝ) : Prop :=
  (0 < yc ∧ 0 < pin.2 ∧
    |xc - pin.1| ≤ (xlim.2 - xlim.1) * (2 / 100) ∧
    |Real.logb 10 yc - Real.logb 10 pin.2| ≤
      (Real.logb 10 ylim.2 - Real.logb 10 ylim.1) * (5 / 100)) ∨
  (¬(0 < yc ∧ 0 < pin.2) ∧
    |xc - pin.1| ≤ (xlim.2 - xlim.1) * (2 / 100) ∧
    |yc - pin.2| ≤ (ylim.2 - ylim.1) * (5 / 100))

noncomputable instance (xc yc : ℝ) (xlim ylim : ℝ × ℝ) :
    DecidablePred (specC6PinRule xc yc xlim ylim) := fun _ => by
  unfold specC6PinRule; infer_instance

/-- The amended combined-view rule: the same x and log10-y comparison, but a
pin with a non-positive y coordinate (or a non-positive click y) never
matches. -/
noncomputable def combinedPinRule (xc yc : ℝ) (xlim ylim : ℝ × ℝ) (pin : ℝ × ℝ) : Prop :=
  0 < yc ∧ 0 < pin.2 ∧
    |xc - pin.1| ≤ (xlim.2 - xlim.1) * (2 / 100) ∧
    |Real.logb 10 yc - Real.logb 10 pin.2| ≤
      (Real.logb 10 ylim.2 - Real.logb 10 ylim.1) * (5 / 100)

noncomputable instance (xc yc : ℝ) (xlim ylim : ℝ × ℝ) :
    DecidablePred (combinedPinRule xc yc xlim ylim) := fun _ => by
  unfold combinedPinRule; infer_instance

/-- First index in the list satisfying `p`, the reference first-match
search the pin matchers are compared against. -/
noncomputable def findIdxP {α : Type} (p : α → Prop) [DecidablePred p] :
    List α → Option ℕ
  | [] => none
  | a :: t => if p a then some 0 else (findIdxP p t).map (· + 1)

/-- Source `remove_specific_pin` (lines 703-716): pop the pin at the given
index when it is in range. -/
noncomputable def remove_specific_pin (pins : List (ℝ × ℝ)) (i : ℕ) : List (ℝ × ℝ) :=
  if i < pins.length then pins.eraseIdx i else pins

/-- The right-click branch of `on_click` (lines 656-664): remove the clicked
pin when `find_clicked_pin` matches, otherwise clear the whole pin list
(`clear_permanent_annotations`, lines 770-784). -/
noncomputable def onRightClick (pins : List (ℝ × ℝ)) (xc yc : ℝ)
    (xlim ylim : ℝ × ℝ) : List (ℝ × ℝ) :=
  match find_clicked_pin true pins xc yc xlim ylim with
  | some i => remove_specific_pin pins i
  | none => []

/-! ## Lemmas about the registry dict -/

theorem find?_map_replace (d : Registry) (k : ℕ) (v : FFTRecord)
    (h : d.any (fun p => p.1 = k) = true) :
    (d.map (fun p => if p.1 = k then (k, v) else p)).find?
      (fun p => p.1 = k) = some (k, v) := by
  induction d with
  | nil => simp at h
  | cons p t ih =>
    by_cases hp : p.1 = k
    · simp [List.find?, hp]
    · simp only [List.any_cons, Bool.or_eq_true, decide_eq_true_eq] at h
      rcases h with h | h
      · exact absurd h hp
      · simp only [List.map_cons, if_neg hp]
        rw [List.find?_cons_of_neg _ (by simpa using hp)]
        exact ih h

theorem find?_append_fresh (d : Registry) (k : ℕ) (v : FFTRecord)
    (h : d.any (fun p => p.1 = k) = false) :
    (d ++ [(k, v)]).find? (fun p => p.1 = k) = some (k, v) := by
  induction d with
  | nil => simp [List.find?]
  | cons p t ih =>
    simp only [List.any_cons, Bool.or_eq_false_iff, decide_eq_false_iff_not] at h
    simp only [List.cons_append]
    rw [List.find?_cons_of_neg _ (by simpa using h.1)]
    exact ih h.2

theorem dictGet_dictSet (d : Registry) (k : ℕ) (v : FFTRecord) :
    dictGet (dictSet d k v) k = some v := by
  unfold dictGet dictSet
  by_cases h : d.any (fun p => p.1 = k) = true
  · rw [if_pos h, find?_map_replace d k v h]; rfl
  · rw [if_neg h, find?_append_fresh d k v (Bool.eq_false_iff.mpr h)]; rfl

/-! ## Claim C1 -/

/-- Claim C1 asserts every `save_to_results` id is strictly greater than all
previously issued ids, even across removals.  The code computes the id as
`len(self.fft_results) + 1` from the CURRENT dict size, so removing entries
makes ids repeat: evaluating the model at insert, remove-id-1, insert issues
the ids 1 and then 1 again; and at insert, insert, remove-id-1, insert it
issues 1, 2, 2, the repeated id 2 silently overwriting a live entry, so the
registry ends with a single entry.  This contradicts the source's own
comment at line 1241 (the id is generated to be unique). -/
theorem C1_id_reuse_eval :
    (runRegistry [RegOp.ins ⟨0, 1⟩, RegOp.rem [1], RegOp.ins ⟨0, 1⟩] []).2 = [1, 1] ∧
    (runRegistry [RegOp.ins ⟨0, 1⟩, RegOp.ins ⟨2, 3⟩, RegOp.rem [1],
      RegOp.ins ⟨4, 5⟩] []).2 = [1, 2, 2] ∧
    dictLen (runRegistry [RegOp.ins ⟨0, 1⟩, RegOp.ins ⟨2, 3⟩, RegOp.rem [1],
      RegOp.ins ⟨4, 5⟩] []).1 = 1 := by
  refine ⟨rfl, rfl, rfl⟩

/-! ## Claim C5 -/

/-- Claim C5 (counterexample): saving is NOT a deep copy.  With the live
result's amplitude array held at store reference 1 (contents `[5, 6]`), an
in-place write of `[99]` through the live result's amplitude reference after
the save changes what the saved registry entry's amplitude array reads back,
contradicting the claimed independence. -/
theorem C5_not_deep_copy :
    registryAmp
        (writeStore (writeStore (writeStore (fun _ => []) 0 [0, 10]) 1 [5, 6]) 1 [99])
        (save_to_results [] ⟨0, 1⟩).2 1
      ≠ registryAmp (writeStore (writeStore (fun _ => []) 0 [0, 10]) 1 [5, 6])
        (save_to_results [] ⟨0, 1⟩).2 1 := by
  decide

/-- Claim C5 (amended): saving stores a SHALLOW copy — the registry entry
created under the fresh id is a new top-level record whose frequency and
amplitude array references are exactly those of the live analysis result, so
the saved entry and the live result share (alias) the same arrays. -/
theorem C5_shallow_copy_shares_arrays (d : Registry) (cur : FFTRecord) :
    dictGet (save_to_results d cur).2 (save_to_results d cur).1 = some (dictCopy cur) ∧
    (dictCopy cur).freqRef = cur.freqRef ∧ (dictCopy cur).ampRef = cur.ampRef :=
  ⟨dictGet_dictSet d (dictLen d + 1) (dictCopy cur), rfl, rfl⟩

/-! ## Claim C2 -/

/-- Claim C2 (counterexample): in relative mode the source takes the maximum
of the WHOLE amplitude array (line 1363), not of `amplitude[start_index:]`
as the claim states.  With `skip_dc = true`, fraction 1/2 and amplitudes
`[10, 1, 2]` (DC bin dominating), the code's threshold is 5 while the
claimed threshold is 1. -/
theorem C2_relative_threshold_counterexample :
    peakThreshold "relative" (1 / 2) 0 0 true [10, 1, 2] ≠
      specC2Threshold "relative" (1 / 2) 0 0 true [10, 1, 2] := by
  have h1 : peakThreshold "relative" (1 / 2) 0 0 true [10, 1, 2] = 5 := by
    unfold peakThreshold pyMax
    rw [if_pos rfl]
    simp only [List.foldl]
    rw [max_eq_left (by norm_num : (1 : ℝ) ≤ 10),
      max_eq_left (by norm_num : (2 : ℝ) ≤ 10)]
    norm_num
  have h2 : specC2Threshold "relative" (1 / 2) 0 0 true [10, 1, 2] = 1 := by
    unfold specC2Threshold startIdx pyMax
    rw [if_pos rfl]
    simp only [if_pos, List.drop_succ_cons, List.drop_zero, List.foldl]
    rw [max_eq_right (by norm_num : (1 : ℝ) ≤ 2)]
    norm_num
  rw [h1, h2]; norm_num

/-- Claim C2 (amended): the threshold used by peak detection is: in relative
mode the fraction times the maximum of the WHOLE amplitude array (the DC bin
included even when `skip_dc` is set); in absolute mode the value itself; in
statistical mode the mean of `amplitude[start_index:]` plus the factor times
its standard deviation, with `start_index = 1` iff `skip_dc`. -/
theorem C2_threshold_formulas (relT absT statF : ℝ) (skipDc : Bool) (amp : List ℝ) :
    peakThreshold "relative" relT absT statF skipDc amp = pyMax amp * relT ∧
    peakThreshold "absolute" relT absT statF skipDc amp = absT ∧
    peakThreshold "statistical" relT absT statF skipDc amp =
      pyMean (amp.drop (startIdx skipDc)) + statF * pyStd (amp.drop (startIdx skipDc)) ∧
    startIdx true = 1 ∧ startIdx false = 0 := by
  refine ⟨by rw [peakThreshold, if_pos rfl], ?_, ?_, rfl, rfl⟩
  · rw [peakThreshold, if_neg (by decide), if_pos rfl]
  · rw [peakThreshold, if_neg (by decide), if_neg (by decide), if_pos rfl]

/-! ## Claim C3 -/

theorem fftfreqList_length (n : ℕ) (d : ℝ) : (fftfreqList n d).length = n := by
  simp [fftfreqList]

theorem fftFrequencies_length (N : ℕ) (fs : ℝ) :
    (fftFrequencies N fs).length = N / 2 := by
  simp [fftFrequencies, fftfreqList_length, Nat.div_le_self]

theorem fftFrequencies_getD (N : ℕ) (fs : ℝ) (k : ℕ)
    (hk : k < N / 2) :
    (fftFrequencies N fs).getD k 0 = k * fs / N := by
  have hkN : k < N := lt_of_lt_of_le hk (Nat.div_le_self N 2)
  have hN : (N : ℝ) ≠ 0 := Nat.cast_ne_zero.mpr (by omega)
  have hk2 : k ≤ (N - 1) / 2 := by omega
  unfold fftFrequencies fftfreqList
  rw [List.getD_eq_getElem?_getD, List.getElem?_take, if_pos hk, List.getElem?_map,
    List.getElem?_range hkN]
  simp only [Option.map_some', Option.getD_some, if_pos hk2]
  field_simp

theorem fftFrequencies_pairwise (N : ℕ) (fs : ℝ) (hfs : 0 < fs) :
    List.Pairwise (· < ·) (fftFrequencies N fs) := by
  rw [List.pairwise_iff_getElem]
  intro i j hi hj hij
  rw [fftFrequencies_length] at hi hj
  have hgi := fftFrequencies_getD N fs i hi
  have hgj := fftFrequencies_getD N fs j hj
  rw [List.getD_eq_getElem _ _ (by rw [fftFrequencies_length]; exact hi)] at hgi
  rw [List.getD_eq_getElem _ _ (by rw [fftFrequencies_length]; exact hj)] at hgj
  rw [hgi, hgj]
  have hN : (0 : ℝ) < N := by
    have : 0 < N := by omega
    exact_mod_cast this
  rw [div_lt_div_iff_of_pos_right hN]
  exact mul_lt_mul_of_pos_right (by exact_mod_cast hij) hfs

/-- Claim C3: for a cleaned input of length `N ≥ 2` at sampling frequency
`fs > 0`, the spectrum has exactly `N / 2` bins, frequency bin `k` is
`k * fs / N` (so bin 0 is 0 and the axis is strictly ascending), and the
amplitude at every bin `k` — bin 0 included, with no special case — is
`2/N` times the modulus of transform output `k`. -/
theorem C3_spectrum_bins (N : ℕ) (fs : ℝ) (yf : List ℂ)
    (hN : 2 ≤ N) (hfs : 0 < fs) (hyf : yf.length = N) :
    (fftFrequencies N fs).length = N / 2 ∧
    (∀ k, k < N / 2 → (fftFrequencies N fs).getD k 0 = k * fs / N) ∧
    (fftFrequencies N fs).getD 0 0 = 0 ∧
    List.Pairwise (· < ·) (fftFrequencies N fs) ∧
    (fftAmplitude N yf).length = N / 2 ∧
    (∀ k, k < N / 2 →
      (fftAmplitude N yf).getD k 0 = 2 / N * Complex.abs (yf.getD k 0)) := by
  have hhalf : 0 < N / 2 := by omega
  refine ⟨fftFrequencies_length N fs,
    fun k hk => fftFrequencies_getD N fs k hk, ?_, ?_, ?_, ?_⟩
  · rw [fftFrequencies_getD N fs 0 hhalf]
    simp
  · exact fftFrequencies_pairwise N fs hfs
  · simp [fftAmplitude, hyf, Nat.div_le_self]
  · intro k hk
    have hkN : k < yf.length := by omega
    unfold fftAmplitude
    rw [List.getD_eq_getElem?_getD, List.getElem?_map, List.getElem?_take, if_pos hk,
      List.getElem?_eq_getElem hkN]
    simp only [Option.map_some', Option.getD_some]
    rw [List.getD_eq_getElem yf 0 hkN]

/-- Claim C3 (witness): the spectrum theorem instantiated at a concrete
4-sample run at 1000 Hz with a concrete transform output. -/
theorem C3_spectrum_bins_witness :
    (2 ≤ 4 ∧ (0 : ℝ) < 1000 ∧ ([1, Complex.I, -1, 2] : List ℂ).length = 4) ∧
    ((fftFrequencies 4 1000).length = 4 / 2 ∧
    (∀ k, k < 4 / 2 → (fftFrequencies 4 1000).getD k 0 = k * 1000 / 4) ∧
    (fftFrequencies 4 1000).getD 0 0 = 0 ∧
    List.Pairwise (· < ·) (fftFrequencies 4 1000) ∧
    (fftAmplitude 4 [1, Complex.I, -1, 2]).length = 4 / 2 ∧
    (∀ k, k < 4 / 2 →
      (fftAmplitude 4 [1, Complex.I, -1, 2]).getD k 0 =
        2 / 4 * Complex.abs (([1, Complex.I, -1, 2] : List ℂ).getD k 0))) :=
  ⟨⟨by norm_num, by norm_num, rfl⟩,
    C3_spectrum_bins 4 1000 [1, Complex.I, -1, 2] (by norm_num) (by norm_num) rfl⟩

/-! ## Claim C4 -/

theorem locFold_none_iff (x : ℚ) :
    ∀ (cands : List SpectrumQ) (acc : Option (ℚ × SpectrumQ)),
    cands.foldl (locStep x) acc = none ↔
      acc = none ∧ ∀ c ∈ cands, ¬ acceptsQ c x := by
  intro cands
  induction cands with
  | nil => intro acc; simp
  | cons c₁ t ih =>
    intro acc
    rw [List.foldl_cons]
    by_cases hlen : 1 < c₁.frequencies.length
    · by_cases hcond : locBetter (ndistQ c₁ x) acc = true ∧ ndistQ c₁ x < xtolQ c₁
      · have hstep : locStep x acc c₁ = some (ndistQ c₁ x, c₁) := by
          simp only [locStep, if_pos hlen, if_pos hcond]
        rw [hstep, ih]
        have hacc : acceptsQ c₁ x := ⟨hlen, hcond.2⟩
        simp [hacc]
      · have hstep : locStep x acc c₁ = acc := by
          simp only [locStep, if_pos hlen, if_neg hcond]
        rw [hstep, ih]
        constructor
        · rintro ⟨haccn, ht⟩
          refine ⟨haccn, ?_⟩
          intro c hc
          rcases List.mem_cons.mp hc with rfl | hc
          · rintro ⟨-, hd⟩
            exact hcond ⟨by simp [locBetter, haccn], hd⟩
          · exact ht c hc
        · rintro ⟨haccn, ht⟩
          exact ⟨haccn, fun c hc => ht c (List.mem_cons_of_mem _ hc)⟩
    · have hstep : locStep x acc c₁ = acc := by
        simp only [locStep, if_neg hlen]
      rw [hstep, ih]
      constructor
      · rintro ⟨haccn, ht⟩
        refine ⟨haccn, ?_⟩
        intro c hc
        rcases List.mem_cons.mp hc with rfl | hc
        · rintro ⟨hl, -⟩; exact hlen hl
        · exact ht c hc
      · rintro ⟨haccn, ht⟩
        exact ⟨haccn, fun c hc => ht c (List.mem_cons_of_mem _ hc)⟩

theorem locFold_some_spec (x : ℚ) :
    ∀ (cands : List SpectrumQ) (acc : Option (ℚ × SpectrumQ)) (dv : ℚ) (c : SpectrumQ),
    cands.foldl (locStep x) acc = some (dv, c) →
    (acc = some (dv, c) ∨ (c ∈ cands ∧ acceptsQ c x ∧ dv = ndistQ c x)) ∧
    (∀ c' ∈ cands, acceptsQ c' x → dv ≤ ndistQ c' x) ∧
    (∀ dv₀ c₀, acc = some (dv₀, c₀) → dv ≤ dv₀) := by
  intro cands
  induction cands with
  | nil =>
    intro acc dv c h
    simp only [List.foldl_nil] at h
    refine ⟨Or.inl h, by simp, ?_⟩
    rintro dv₀ c₀ rfl
    simp only [Option.some.injEq, Prod.mk.injEq] at h
    exact le_of_eq h.1.symm
  | cons c₁ t ih =>
    intro acc dv c h
    rw [List.foldl_cons] at h
    by_cases hlen : 1 < c₁.frequencies.length
    · by_cases hcond : locBetter (ndistQ c₁ x) acc = true ∧ ndistQ c₁ x < xtolQ c₁
      · have hstep : locStep x acc c₁ = some (ndistQ c₁ x, c₁) := by
          simp only [locStep, if_pos hlen, if_pos hcond]
        rw [hstep] at h
        obtain ⟨hprov, hmin, hacc₃⟩ := ih _ dv c h
        have hdvle : dv ≤ ndistQ c₁ x := hacc₃ _ _ rfl
        refine ⟨?_, ?_, ?_⟩
        · rcases hprov with heq | ⟨hmem, hok, hdv⟩
          · simp only [Option.some.injEq, Prod.mk.injEq] at heq
            obtain ⟨h1, h2⟩ := heq
            subst h2
            exact Or.inr ⟨List.mem_cons_self _ _, ⟨hlen, hcond.2⟩, h1.symm⟩
          · exact Or.inr ⟨List.mem_cons_of_mem _ hmem, hok, hdv⟩
        · intro c' hc' hok'
          rcases List.mem_cons.mp hc' with rfl | hc'
          · exact hdvle
          · exact hmin c' hc' hok'
        · rintro dv₀ c₀ rfl
          have hlt : ndistQ c₁ x < dv₀ := by
            have := hcond.1
            simpa [locBetter] using this
          exact le_of_lt (lt_of_le_of_lt hdvle hlt)
      · have hstep : locStep x acc c₁ = acc := by
          simp only [locStep, if_pos hlen, if_neg hcond]
        rw [hstep] at h
        obtain ⟨hprov, hmin, hacc₃⟩ := ih _ dv c h
        refine ⟨?_, ?_, hacc₃⟩
        · rcases hprov with heq | ⟨hmem, hok, hdv⟩
          · exact Or.inl heq
          · exact Or.inr ⟨List.mem_cons_of_mem _ hmem, hok, hdv⟩
        · intro c' hc' hok'
          rcases List.mem_cons.mp hc' with rfl | hc'
          · rcases Option.eq_none_or_eq_some acc with haccn | ⟨⟨dv₀, c₀⟩, hacce⟩
            · exact absurd ⟨by simp [locBetter, haccn], hok'.2⟩ hcond
            · by_cases hbt : ndistQ c' x < dv₀
              · exact absurd ⟨by simp [locBetter, hacce, hbt], hok'.2⟩ hcond
              · exact le_trans (hacc₃ _ _ hacce) (not_lt.mp hbt)
          · exact hmin c' hc' hok'
    · have hstep : locStep x acc c₁ = acc := by
        simp only [locStep, if_neg hlen]
      rw [hstep] at h
      obtain ⟨hprov, hmin, hacc₃⟩ := ih _ dv c h
      refine ⟨?_, ?_, hacc₃⟩
      · rcases hprov with heq | ⟨hmem, hok, hdv⟩
        · exact Or.inl heq
        · exact Or.inr ⟨List.mem_cons_of_mem _ hmem, hok, hdv⟩
      · intro c' hc' hok'
        rcases List.mem_cons.mp hc' with rfl | hc'
        · exact absurd hok'.1 hlen
        · exact hmin c' hc' hok'

/-- Claim C4 (amended): the combined-view point locator skips candidates
with fewer than 2 points rather than returning ` none` globally; it returns
` none` exactly when no (≥ 2 point) candidate's nearest-frequency distance is
strictly within 2% of that candidate's own frequency span, and otherwise it
returns the nearest point of an accepting candidate whose distance is
minimal among all accepting candidates. -/
theorem C4_locator_characterization (cands : List SpectrumQ) (x : ℚ) :
    (combinedLocate cands x = none ↔ ∀ c ∈ cands, ¬ acceptsQ c x) ∧
    (∀ r, combinedLocate cands x = some r →
      ∃ c ∈ cands, acceptsQ c x ∧ r = nearestPoint c x ∧
        ∀ c' ∈ cands, acceptsQ c' x → ndistQ c x ≤ ndistQ c' x) := by
  constructor
  · rw [combinedLocate, Option.map_eq_none', locFold_none_iff]
    simp
  · intro r hr
    rw [combinedLocate, Option.map_eq_some'] at hr
    obtain ⟨⟨dv, c⟩, hfold, hpay⟩ := hr
    obtain ⟨hprov, hmin, -⟩ := locFold_some_spec x cands none dv c hfold
    rcases hprov with heq | ⟨hmem, hok, hdv⟩
    · exact absurd heq (by simp)
    · exact ⟨c, hmem, hok, hpay.symm, fun c' hc' hok' => by
        rw [← hdv]; exact hmin c' hc' hok'⟩

/-- Claim C4 (counterexample): a candidate with fewer than 2 points does NOT
force a ` none` result — it is merely skipped.  With a one-point candidate
alongside a two-point candidate that accepts the cursor at x = 1/20, the
locator returns the accepting candidate's nearest point, while the claim as
stated requires ` none` whenever any candidate has fewer than 2 points. -/
theorem C4_short_candidate_counterexample :
    (SpectrumQ.mk [5] [1]).frequencies.length < 2 ∧
    combinedLocate [⟨[5], [1]⟩, ⟨[0, 10], [1, 2]⟩] (1 / 20) = some (0, 1) := by
  refine ⟨by norm_num, ?_⟩
  have h1 : |(1 : ℚ) / 20| = 1 / 20 := abs_of_nonneg (by norm_num)
  have h199 : |(199 : ℚ) / 20| = 199 / 20 := abs_of_nonneg (by norm_num)
  norm_num [combinedLocate, locStep, locBetter, ndistQ, nearestPoint, xtolQ,
    argminQ, argminAux, List.getD, h1, h199]

/-- Claim C4 (witness): the characterization applied to a concrete accepting
candidate list. -/
theorem C4_locator_characterization_witness :
    combinedLocate [⟨[0, 10], [3, 4]⟩] 0 = some (0, 3) ∧
    ∃ c ∈ [(⟨[0, 10], [3, 4]⟩ : SpectrumQ)], acceptsQ c 0 ∧
      ((0 : ℚ), (3 : ℚ)) = nearestPoint c 0 ∧
      ∀ c' ∈ [(⟨[0, 10], [3, 4]⟩ : SpectrumQ)], acceptsQ c' 0 →
        ndistQ c 0 ≤ ndistQ c' 0 := by
  have h : combinedLocate [(⟨[0, 10], [3, 4]⟩ : SpectrumQ)] 0 = some (0, 3) := by
    norm_num [combinedLocate, locStep, locBetter, ndistQ, nearestPoint, xtolQ,
      argminQ, argminAux, List.getD]
  exact ⟨h, (C4_locator_characterization [⟨[0, 10], [3, 4]⟩] 0).2 (0, 3) h⟩

/-! ## Claim C6 -/

theorem findPinLoop_eq (xc yc : ℝ) (xlim ylim : ℝ × ℝ) (pins : List (ℝ × ℝ)) (i : ℕ) :
    findPinLoop xc yc ((xlim.2 - xlim.1) * (2 / 100)) ((ylim.2 - ylim.1) * (5 / 100))
        ((Real.logb 10 ylim.2 - Real.logb 10 ylim.1) * (5 / 100)) pins i =
      (findIdxP (specC6PinRule xc yc xlim ylim) pins).map (· + i) := by
  induction pins generalizing i with
  | nil => simp [findPinLoop, findIdxP]
  | cons pin rest ih =>
    by_cases hpos : 0 < yc ∧ 0 < pin.2
    · by_cases hxy : |xc - pin.1| ≤ (xlim.2 - xlim.1) * (2 / 100) ∧
          |Real.logb 10 yc - Real.logb 10 pin.2| ≤
            (Real.logb 10 ylim.2 - Real.logb 10 ylim.1) * (5 / 100)
      · have hrule : specC6PinRule xc yc xlim ylim pin :=
          Or.inl ⟨hpos.1, hpos.2, hxy.1, hxy.2⟩
        rw [findPinLoop, if_pos hpos, if_pos hxy, findIdxP, if_pos hrule]
        simp
      · have hrule : ¬ specC6PinRule xc yc xlim ylim pin := by
          rintro (⟨h1, h2, h3, h4⟩ | ⟨hneg, -, -⟩)
          · exact hxy ⟨h3, h4⟩
          · exact hneg hpos
        rw [findPinLoop, if_pos hpos, if_neg hxy, findIdxP, if_neg hrule, ih]
        cases h : findIdxP (specC6PinRule xc yc xlim ylim) rest with
        | none => simp
        | some v => simp; omega
    · by_cases hxy : |xc - pin.1| ≤ (xlim.2 - xlim.1) * (2 / 100) ∧
          |yc - pin.2| ≤ (ylim.2 - ylim.1) * (5 / 100)
      · have hrule : specC6PinRule xc yc xlim ylim pin :=
          Or.inr ⟨hpos, hxy.1, hxy.2⟩
        rw [findPinLoop, if_neg hpos, if_pos hxy, findIdxP, if_pos hrule]
        simp
      · have hrule : ¬ specC6PinRule xc yc xlim ylim pin := by
          rintro (⟨h1, h2, -, -⟩ | ⟨-, h3, h4⟩)
          · exact hpos ⟨h1, h2⟩
          · exact hxy ⟨h3, h4⟩
        rw [findPinLoop, if_neg hpos, if_neg hxy, findIdxP, if_neg hrule, ih]
        cases h : findIdxP (specC6PinRule xc yc xlim ylim) rest with
        | none => simp
        | some v => simp; omega

theorem findCombinedPinLoop_eq (xc yc : ℝ) (xlim ylim : ℝ × ℝ)
    (pins : List (ℝ × ℝ)) (i : ℕ) :
    findCombinedPinLoop xc yc ((xlim.2 - xlim.1) * (2 / 100))
        ((Real.logb 10 ylim.2 - Real.logb 10 ylim.1) * (5 / 100)) pins i =
      (findIdxP (combinedPinRule xc yc xlim ylim) pins).map (· + i) := by
  induction pins generalizing i with
  | nil => simp [findCombinedPinLoop, findIdxP]
  | cons pin rest ih =>
    by_cases hpos : 0 < yc ∧ 0 < pin.2
    · by_cases hxy : |xc - pin.1| ≤ (xlim.2 - xlim.1) * (2 / 100) ∧
          |Real.logb 10 yc - Real.logb 10 pin.2| ≤
            (Real.logb 10 ylim.2 - Real.logb 10 ylim.1) * (5 / 100)
      · have hrule : combinedPinRule xc yc xlim ylim pin :=
          ⟨hpos.1, hpos.2, hxy.1, hxy.2⟩
        rw [findCombinedPinLoop, if_pos hpos, if_pos hxy, findIdxP, if_pos hrule]
        simp
      · have hrule : ¬ combinedPinRule xc yc xlim ylim pin := by
          rintro ⟨h1, h2, h3, h4⟩
          exact hxy ⟨h3, h4⟩
        rw [findCombinedPinLoop, if_pos hpos, if_neg hxy, findIdxP, if_neg hrule, ih]
        cases h : findIdxP (combinedPinRule xc yc xlim ylim) rest with
        | none => simp
        | some v => simp; omega
    · have hrule : ¬ combinedPinRule xc yc xlim ylim pin := by
        rintro ⟨h1, h2, -, -⟩
        exact hpos ⟨h1, h2⟩
      rw [findCombinedPinLoop, if_neg hpos, findIdxP, if_neg hrule, ih]
      cases h : findIdxP (combinedPinRule xc yc xlim ylim) rest with
      | none => simp
      | some v => simp; omega

/-- Claim C6 (amended): the single-view matcher returns the first pin in
list order matching the claimed rule (x distance within 2% of the x range
and log10 y distance within 5% of the log y range, with a raw linear
fallback when either y coordinate is non-positive); the combined-view
matcher uses the same x and log10-y rule but SKIPS any pin when either y
coordinate is non-positive — it has no linear fallback. -/
theorem C6_pin_matching_rules (pins : List (ℝ × ℝ)) (xc yc : ℝ) (xlim ylim : ℝ × ℝ) :
    find_clicked_pin true pins xc yc xlim ylim =
      findIdxP (specC6PinRule xc yc xlim ylim) pins ∧
    find_combined_clicked_pin pins xc yc xlim ylim =
      findIdxP (combinedPinRule xc yc xlim ylim) pins := by
  constructor
  · rw [find_clicked_pin, if_pos rfl]
    simpa using findPinLoop_eq xc yc xlim ylim pins 0
  · rw [find_combined_clicked_pin]
    simpa using findCombinedPinLoop_eq xc yc xlim ylim pins 0

/-- Claim C6 (counterexample): the claimed linear fallback for non-positive
y coordinates does NOT hold on the combined view.  Click at (5, 0) with a
pin at (5, 2), x range (0, 10) and y range (1, 100): the claimed rule
matches pin 0 (x distance 0 ≤ 0.2, linear y distance 2 ≤ 4.95), but
`find_combined_clicked_pin` skips the pin because the click y is
non-positive and returns ` none`. -/
theorem C6_combined_fallback_counterexample :
    findIdxP (specC6PinRule 5 0 ((0 : ℝ), 10) ((1 : ℝ), 100)) [((5 : ℝ), 2)] = some 0 ∧
    find_combined_clicked_pin [((5 : ℝ), 2)] 5 0 ((0 : ℝ), 10) ((1 : ℝ), 100) = none := by
  have hneg : ¬((0 : ℝ) < 0 ∧ (0 : ℝ) < 2) := fun h => lt_irrefl 0 h.1
  constructor
  · have hrule : specC6PinRule 5 0 ((0 : ℝ), 10) ((1 : ℝ), 100) ((5 : ℝ), 2) := by
      refine Or.inr ⟨hneg, ?_, ?_⟩
      · simp only [sub_self, abs_zero]
        norm_num
      · rw [show (0 : ℝ) - 2 = -2 by norm_num, abs_neg,
          abs_of_nonneg (by norm_num : (0 : ℝ) ≤ 2)]
        norm_num
    rw [findIdxP, if_pos hrule]
  · rw [find_combined_clicked_pin, findCombinedPinLoop, if_neg hneg,
      findCombinedPinLoop]

/-! ## Claim C8 -/

theorem findPinLoop_some_lt (xc yc xtol ytol ytolLog : ℝ) :
    ∀ (pins : List (ℝ × ℝ)) (i j : ℕ),
    findPinLoop xc yc xtol ytol ytolLog pins i = some j → j < i + pins.length := by
  intro pins
  induction pins with
  | nil => intro i j h; simp [findPinLoop] at h
  | cons pin rest ih =>
    intro i j h
    rw [findPinLoop] at h
    by_cases hpos : 0 < yc ∧ 0 < pin.2
    · rw [if_pos hpos] at h
      by_cases hxy : |xc - pin.1| ≤ xtol ∧
          |Real.logb 10 yc - Real.logb 10 pin.2| ≤ ytolLog
      · rw [if_pos hxy] at h
        simp only [Option.some.injEq] at h
        subst h; simp
      · rw [if_neg hxy] at h
        have := ih (i + 1) j h
        simp only [List.length_cons]
        omega
    · rw [if_neg hpos] at h
      by_cases hxy : |xc - pin.1| ≤ xtol ∧ |yc - pin.2| ≤ ytol
      · rw [if_pos hxy] at h
        simp only [Option.some.injEq] at h
        subst h; simp
      · rw [if_neg hxy] at h
        have := ih (i + 1) j h
        simp only [List.length_cons]
        omega

theorem find_clicked_pin_some_lt (pins : List (ℝ × ℝ)) (xc yc : ℝ)
    (xlim ylim : ℝ × ℝ) (i : ℕ)
    (h : find_clicked_pin true pins xc yc xlim ylim = some i) : i < pins.length := by
  rw [find_clicked_pin, if_pos rfl] at h
  simpa using findPinLoop_some_lt _ _ _ _ _ pins 0 i h

/-- Claim C8: on a right click, if the single-view matcher finds a pin,
exactly that pin is removed (the list becomes `eraseIdx` at the found index,
whose length is one less); if no pin matches, the whole pin list is
cleared. -/
theorem C8_right_click (pins : List (ℝ × ℝ)) (xc yc : ℝ) (xlim ylim : ℝ × ℝ) :
    (∀ i, find_clicked_pin true pins xc yc xlim ylim = some i →
      onRightClick pins xc yc xlim ylim = pins.eraseIdx i ∧
      (onRightClick pins xc yc xlim ylim).length + 1 = pins.length) ∧
    (find_clicked_pin true pins xc yc xlim ylim = none →
      onRightClick pins xc yc xlim ylim = []) := by
  constructor
  · intro i h
    have hlt : i < pins.length := find_clicked_pin_some_lt pins xc yc xlim ylim i h
    have hres : onRightClick pins xc yc xlim ylim = pins.eraseIdx i := by
      unfold onRightClick
      rw [h]
      unfold remove_specific_pin
      show (if i < pins.length then pins.eraseIdx i else pins) = pins.eraseIdx i
      rw [if_pos hlt]
    refine ⟨hres, ?_⟩
    rw [hres, List.length_eraseIdx_of_lt hlt]
    omega
  · intro h
    unfold onRightClick
    rw [h]

/-- Claim C8 (witness): a right click exactly on a pinned point removes that
single pin; with one pin the list length drops from 1 to 0. -/
theorem C8_right_click_witness :
    onRightClick [((5 : ℝ), 1)] 5 1 ((0 : ℝ), 10) ((1 : ℝ), 10) =
      List.eraseIdx [((5 : ℝ), 1)] 0 ∧
    (onRightClick [((5 : ℝ), 1)] 5 1 ((0 : ℝ), 10) ((1 : ℝ), 10)).length + 1 = 1 := by
  have hfind : find_clicked_pin true [((5 : ℝ), 1)] 5 1 ((0 : ℝ), 10) ((1 : ℝ), 10) =
      some 0 := by
    rw [find_clicked_pin, if_pos rfl, findPinLoop,
      if_pos ⟨one_pos, one_pos⟩, if_pos]
    constructor
    · simp only [sub_self, abs_zero]
      norm_num
    · simp only [Real.logb_one, sub_self, abs_zero]
      have h10 : Real.logb 10 10 = 1 := Real.logb_self_eq_one (by norm_num)
      rw [h10]
      norm_num
  have h := (C8_right_click [((5 : ℝ), 1)] 5 1 ((0 : ℝ), 10) ((1 : ℝ), 10)).1 0 hfind
  exact ⟨h.1, by simpa using h.2⟩

/-! ## Claim C7 -/

theorem mergeCandidate_cons_far (amp : List ℝ) (d i p : ℕ) (rest : List ℕ)
    (hd : ¬ Nat.dist i p < d) :
    mergeCandidate amp d (p :: rest) i = p :: mergeCandidate amp d rest i := by
  simp only [mergeCandidate, innerScan, if_neg hd]
  cases hX : (innerScan amp d i rest).2 <;> simp [hX]

theorem mergeCandidate_eq_spec (amp : List ℝ) (d i : ℕ) :
    ∀ peaks : List ℕ, mergeCandidate amp d peaks i = specMergeStep amp d peaks i := by
  intro peaks
  induction peaks with
  | nil => rfl
  | cons p rest ih =>
    by_cases hd : Nat.dist i p < d
    · by_cases hw : amp.getD p 0 < amp.getD i 0
      · simp only [mergeCandidate, innerScan, if_pos hd, if_pos hw, specMergeStep]
        rw [List.find?_cons_of_pos _ (by simpa using hd)]
        simp only [List.erase_cons_head]
        exact (if_pos hw).symm
      · simp only [mergeCandidate, innerScan, if_pos hd, if_neg hw, specMergeStep]
        rw [List.find?_cons_of_pos _ (by simpa using hd)]
        exact (if_neg hw).symm
    · rw [mergeCandidate_cons_far amp d i p rest hd, ih]
      simp only [specMergeStep]
      rw [List.find?_cons_of_neg _ (by simpa using hd)]
      cases hq : rest.find? (fun q => Nat.dist i q < d) with
      | none => simp
      | some q =>
        have hq_pred : Nat.dist i q < d := by
          have := List.find?_some hq
          simpa using this
        have hpq : p ≠ q := fun h => hd (h ▸ hq_pred)
        dsimp only
        by_cases hw : amp.getD q 0 < amp.getD i 0
        · rw [if_pos hw, if_pos hw,
            List.erase_cons_tail (by simpa using fun h => hpq h)]
          simp
        · rw [if_neg hw, if_neg hw]

theorem detectLoop_eq_filter_foldl (amp : List ℝ) (thr : ℝ) (d w : ℕ) :
    ∀ (cands peaks : List ℕ),
    detectLoop amp thr d w cands peaks =
      (cands.filter
        (fun i => decide (isLocalMaxAt amp w i ∧ thr < amp.getD i 0))).foldl
        (specMergeStep amp d) peaks := by
  intro cands
  induction cands with
  | nil => intro peaks; rfl
  | cons i rest ih =>
    intro peaks
    by_cases hc : isLocalMaxAt amp w i ∧ thr < amp.getD i 0
    · rw [detectLoop, if_pos hc, ih, mergeCandidate_eq_spec,
        List.filter_cons_of_pos (by simpa using hc), List.foldl_cons]
    · rw [detectLoop, if_neg hc, ih,
        List.filter_cons_of_neg (by simpa using hc)]

/-- Claim C7: minimum-distance enforcement is exactly the incremental
left-to-right policy of the claim — the accepted candidates are processed in
ascending index order, and each new candidate is compared against only the
FIRST prior accepted peak within `min_distance_bins`: the prior peak is
removed (and the candidate appended) when the candidate's amplitude is
strictly higher, otherwise the candidate is discarded; candidates with no
prior peak in range are appended. -/
theorem C7_incremental_min_distance (mode : String) (relT absT statF : ℝ)
    (minDist w : ℕ) (skipDc : Bool) (amp : List ℝ) :
    detect_peaks_advanced mode relT absT statF minDist w skipDc amp =
      (acceptedCandidates mode relT absT statF w skipDc amp).foldl
        (specMergeStep amp minDist) [] := by
  rw [detect_peaks_advanced, acceptedCandidates, detectLoop_eq_filter_foldl]

/-! ## Claim C10 -/

theorem innerScan_fst_sublist (amp : List ℝ) (d i : ℕ) :
    ∀ l : List ℕ, (innerScan amp d i l).1.Sublist l := by
  intro l
  induction l with
  | nil => simp [innerScan]
  | cons p rest ih =>
    by_cases hd : Nat.dist i p < d
    · by_cases hw : amp.getD p 0 < amp.getD i 0
      · simp only [innerScan, if_pos hd, if_pos hw]
        exact List.sublist_cons_self p rest
      · simp only [innerScan, if_pos hd, if_neg hw]
        exact List.Sublist.refl _
    · simp only [innerScan, if_neg hd]
      exact List.Sublist.cons₂ p ih

theorem mergeCandidate_mem (amp : List ℝ) (d i : ℕ) (peaks : List ℕ) (x : ℕ)
    (hx : x ∈ mergeCandidate amp d peaks i) : x ∈ peaks ∨ x = i := by
  rw [mergeCandidate] at hx
  by_cases hb : (innerScan amp d i peaks).2 = true
  · rw [if_pos hb] at hx
    exact Or.inl ((innerScan_fst_sublist amp d i peaks).mem hx)
  · rw [if_neg hb] at hx
    rcases List.mem_append.mp hx with hx | hx
    · exact Or.inl ((innerScan_fst_sublist amp d i peaks).mem hx)
    · exact Or.inr (List.mem_singleton.mp hx)

theorem mergeCandidate_pairwise (amp : List ℝ) (d i : ℕ) (peaks : List ℕ)
    (hp : peaks.Pairwise (· < ·)) (hlt : ∀ y ∈ peaks, y < i) :
    (mergeCandidate amp d peaks i).Pairwise (· < ·) := by
  rw [mergeCandidate]
  have hsub := innerScan_fst_sublist amp d i peaks
  by_cases hb : (innerScan amp d i peaks).2 = true
  · rw [if_pos hb]
    exact hp.sublist hsub
  · rw [if_neg hb]
    rw [List.pairwise_append]
    refine ⟨hp.sublist hsub, List.pairwise_singleton _ _, ?_⟩
    intro x hx y hy
    rw [List.mem_singleton.mp hy]
    exact hlt x (hsub.mem hx)

theorem detectLoop_invariant (amp : List ℝ) (thr : ℝ) (d w : ℕ) (P : ℕ → Prop) :
    ∀ (cands peaks : List ℕ),
    cands.Pairwise (· < ·) → (∀ c ∈ cands, P c) →
    peaks.Pairwise (· < ·) → (∀ x ∈ peaks, P x) →
    (∀ x ∈ peaks, ∀ c ∈ cands, x < c) →
    (detectLoop amp thr d w cands peaks).Pairwise (· < ·) ∧
    (∀ x ∈ detectLoop amp thr d w cands peaks, P x) := by
  intro cands
  induction cands with
  | nil => intro peaks _ _ hp hP _; exact ⟨hp, hP⟩
  | cons i rest ih =>
    intro peaks hsort hcP hp hP hlt
    obtain ⟨hhead, htail⟩ := List.pairwise_cons.mp hsort
    rw [detectLoop]
    by_cases hc : isLocalMaxAt amp w i ∧ thr < amp.getD i 0
    · rw [if_pos hc]
      apply ih
      · exact htail
      · exact fun c hc' => hcP c (List.mem_cons_of_mem _ hc')
      · exact mergeCandidate_pairwise amp d i peaks hp
          (fun y hy => hlt y hy i (List.mem_cons_self _ _))
      · intro x hx
        rcases mergeCandidate_mem amp d i peaks x hx with hx' | rfl
        · exact hP x hx'
        · exact hcP x (List.mem_cons_self _ _)
      · intro x hx c hcr
        rcases mergeCandidate_mem amp d i peaks x hx with hx' | rfl
        · exact hlt x hx' c (List.mem_cons_of_mem _ hcr)
        · exact hhead c hcr
    · rw [if_neg hc]
      exact ih peaks htail (fun c h => hcP c (List.mem_cons_of_mem _ h)) hp hP
        (fun x hx c h => hlt x hx c (List.mem_cons_of_mem _ h))

theorem candidateIdxs_mem (skipDc : Bool) (w n i : ℕ)
    (h : i ∈ candidateIdxs skipDc w n) :
    startIdx skipDc + w ≤ i ∧ i + w < n := by
  rw [candidateIdxs, List.mem_range'_1] at h
  omega

theorem candidateIdxs_pairwise (skipDc : Bool) (w n : ℕ) :
    (candidateIdxs skipDc w n).Pairwise (· < ·) := by
  rw [candidateIdxs]
  exact List.pairwise_lt_range' _ _

/-- Claim C10: with `window_half_width ≥ 1`, every returned peak index `p`
satisfies `start_index + w ≤ p` and `p + w < len(amplitude)`, the returned
index sequence is strictly increasing, and with `skip_dc = true` bin 0
never appears, whatever the amplitude at bin 0. -/
theorem C10_peak_bounds (mode : String) (relT absT statF : ℝ) (minDist w : ℕ)
    (skipDc : Bool) (amp : List ℝ) (hw : 1 ≤ w) :
    (∀ p ∈ detect_peaks_advanced mode relT absT statF minDist w skipDc amp,
      startIdx skipDc + w ≤ p ∧ p + w < amp.length) ∧
    (detect_peaks_advanced mode relT absT statF minDist w skipDc amp).Pairwise (· < ·) ∧
    (skipDc = true →
      0 ∉ detect_peaks_advanced mode relT absT statF minDist w skipDc amp) := by
  have key := detectLoop_invariant amp
    (peakThreshold mode relT absT statF skipDc amp) minDist w
    (fun i => startIdx skipDc + w ≤ i ∧ i + w < amp.length)
    (candidateIdxs skipDc w amp.length) []
    (candidateIdxs_pairwise skipDc w amp.length)
    (fun c hc => candidateIdxs_mem skipDc w amp.length c hc)
    (List.Pairwise.nil) (by simp) (by simp)
  rw [detect_peaks_advanced]
  refine ⟨key.2, key.1, ?_⟩
  intro _ hmem
  have := key.2 0 hmem
  omega

/-- Claim C10 (witness): the bounds theorem applied at a concrete
amplitude list with window half-width 1 and DC skipping on. -/
theorem C10_peak_bounds_witness :
    1 ≤ 1 ∧
    ((∀ p ∈ detect_peaks_advanced "absolute" 0 0 0 1 1 true [0, 5, 1, 9, 2],
      startIdx true + 1 ≤ p ∧ p + 1 < ([0, 5, 1, 9, 2] : List ℝ).length) ∧
    (detect_peaks_advanced "absolute" 0 0 0 1 1 true [0, 5, 1, 9, 2]).Pairwise (· < ·) ∧
    (true = true →
      0 ∉ detect_peaks_advanced "absolute" 0 0 0 1 1 true [0, 5, 1, 9, 2])) :=
  ⟨le_refl 1, C10_peak_bounds "absolute" 0 0 0 1 1 true [0, 5, 1, 9, 2] (le_refl 1)⟩

/-! ## Claim C9 -/

/-- Claim C9 (amended): when the cleaned sample sequence is empty or the
sampling frequency is exactly zero (the division `T = 1.0/freq_hz` raises
and the surrounding handler catches it), the run surfaces an error and
commits no partial state: the stored current analysis data and the pin list
are returned unchanged.  (A strictly negative sampling frequency is NOT
rejected — see the counterexample.) -/
theorem C9_abort_no_partial_state (raw : List (Option ℝ)) (fs : ℝ) (wtag : String)
    (st : MainState) (h : raw.filterMap id = [] ∨ fs = 0) :
    (run_fft_analysis raw fs wtag st).1 = st ∧
    (run_fft_analysis raw fs wtag st).2 ≠ none := by
  rcases h with h | h
  · unfold run_fft_analysis
    rw [h]
    simp
  · unfold run_fft_analysis
    by_cases hlen : (raw.filterMap id).length = 0
    · simp [hlen]
    · simp [hlen, h]

/-- Claim C9 (witness): a run on a column slice that is all missing values
is aborted with the state untouched. -/
theorem C9_abort_no_partial_state_witness :
    (([none] : List (Option ℝ)).filterMap id = [] ∨ (5 : ℝ) = 0) ∧
    (run_fft_analysis [none] 5 "none" ⟨none, []⟩).1 = ⟨none, []⟩ ∧
    (run_fft_analysis [none] 5 "none" ⟨none, []⟩).2 ≠ none :=
  ⟨Or.inl rfl, C9_abort_no_partial_state [none] 5 "none" ⟨none, []⟩ (Or.inl rfl)⟩

/-- Claim C9 (counterexample): a NEGATIVE sampling frequency is not
rejected.  At `fs = -1` with valid data the run completes with no error and
commits state — the pin list is cleared and new analysis data is stored —
while the claim requires any non-positive sampling frequency to abort the
run with `InvalidInput` and leave the state unchanged. -/
theorem C9_negative_fs_counterexample :
    ((-1 : ℝ) ≤ 0) ∧
    (run_fft_analysis [some 1, some 2] (-1) "none" ⟨none, [(1, 1)]⟩).2 = none ∧
    (run_fft_analysis [some 1, some 2] (-1) "none" ⟨none, [(1, 1)]⟩).1.pins = [] ∧
    (run_fft_analysis [some 1, some 2] (-1) "none" ⟨none, [(1, 1)]⟩).1 ≠
      ⟨none, [(1, 1)]⟩ := by
  refine ⟨by norm_num, ?_, ?_, ?_⟩ <;>
    · simp only [run_fft_analysis, List.filterMap_cons, List.filterMap_nil, id_eq,
        List.length_cons, List.length_nil]
      norm_num [MainState.mk.injEq]

end FFTAnalyser
